import Mathlib

/-!
Verification of the LRU cache library (repository madokast/LRU).

The repository contains two near-identical variants of a size-bounded LRU
cache written in Go:

* `src/unnamed/part_000` — the full variant, with `New`, `Put`, `Get`,
  `LeastRecentlyUsed`, `AllKeys` (recency order), `Scan`, `Remove`,
  `RemoveIf`, `RemoveAll`, `Size`, `Number`, and the internal helpers
  `removeUnlock` and `expireUnlock`;
* `src/lru.go` — the reduced variant, identical except that it lacks
  `LeastRecentlyUsed`, `Scan` and `RemoveIf`, and its `AllKeys` iterates the
  key map (unspecified map order) instead of the recency list.

Embedding choices:

* The Go `container/list` doubly-linked list is modelled as a Lean
  `List (K × V)`; the front of the Lean list is the front (most recently
  used end) of the Go list.
* The Go map `m : map[K]*list.Element` stores pointers into the list.  The
  map is modelled by its key set, a `List K`; dereferencing the pointer held
  by the map for key `k` is modelled by looking up the first entry of the
  recency list with key `k` (`lookupVal`).  On every state reachable by the
  public API the map's key set and the list's key set coincide and the
  list's keys are duplicate-free, so the lookup returns exactly the entry
  the Go pointer designates.
* Go `int` arithmetic on sizes is modelled by `Int`; the algorithms never
  rely on machine-word wraparound.
* The eviction callback `expireCallback` is an external effect; every
  mutating operation returns, next to the new cache state, the list of
  `(key, value)` pairs passed to the callback, in invocation order.  The
  `sync.RWMutex` makes each public operation atomic; the model is the
  resulting sequential semantics.
* The `for c.curSize > c.maxSize && c.li.Len() > 0` loop of `expireUnlock`
  is modelled with explicit fuel `c.li.length`; on well-formed states each
  iteration removes exactly one entry, so this fuel is exactly enough, and
  fuel-insensitivity is proved (`expireLoop_fuel`).
-/

set_option linter.unusedVariables false
set_option linter.unusedSectionVars false

namespace LruSpec

/-- The cache state shared by both source variants (`Cache[K comparable, V]`
in Go).  `li` is the recency list of entries (front = most recently used),
`m` is the key set of the Go map `m map[K]*list.Element`, `sizeCal` the
caller-supplied cost function, `maxSize` the capacity and `curSize` the
running accumulated cost. -/
structure Cache (K V : Type) where
  li : List (K × V)
  m : List K
  sizeCal : K → V → Int
  maxSize : Int
  curSize : Int

variable {K V : Type} [DecidableEq K]

/-- Keys of the recency list, front to back. -/
def keysOf (li : List (K × V)) : List K := li.map Prod.fst

/-- Dereference the map pointer for key `k`: the value of the first entry of
the recency list whose key is `k`. -/
def lookupVal (li : List (K × V)) (k : K) : Option V :=
  (li.find? fun e => decide (e.1 = k)).map Prod.snd

/-- Total cost of a list of entries under cost function `f`. -/
def sizeSum (f : K → V → Int) : List (K × V) → Int
  | [] => 0
  | e :: l => f e.1 e.2 + sizeSum f l

/-- The `MoveToFront` method of Go's standard `container/list`, applied to
the element holding key `key` (shared library code used by both variants). -/
def moveToFront (li : List (K × V)) (key : K) : List (K × V) :=
  match li.find? fun e => decide (e.1 = key) with
  | some e => e :: li.eraseP fun x => decide (x.1 = key)
  | none => li

/- Variant of `src/unnamed/part_000`. -/
namespace Va

/-- `New` of `src/unnamed/part_000` (the eviction callback is modelled by
the traces returned by the operations; a `nil` cost function is the
caller passing `fun k v => 1`). -/
def New (maxSize : Int) (sizeCal : K → V → Int) : Cache K V :=
  { li := [], m := [], sizeCal := sizeCal, maxSize := maxSize, curSize := 0 }

/-- `removeUnlock` of `src/unnamed/part_000`: if the map contains `key`,
delete it from the map, unlink its entry from the recency list, subtract its
cost from `curSize` and invoke the eviction callback for it. -/
def removeUnlock (c : Cache K V) (key : K) : Cache K V × List (K × V) :=
  if key ∈ c.m then
    match lookupVal c.li key with
    | some v =>
        ({ c with
            m := c.m.erase key,
            li := c.li.eraseP fun e => decide (e.1 = key),
            curSize := c.curSize - c.sizeCal key v }, [(key, v)])
    | none => (c, [])
  else (c, [])

/-- The body of the `for c.curSize > c.maxSize && c.li.Len() > 0` loop of
`expireUnlock`, with explicit fuel: each iteration removes the back-most
(least recently used) entry via `removeUnlock`. -/
def expireLoop : Nat → Cache K V → Cache K V × List (K × V)
  | 0, c => (c, [])
  | fuel + 1, c =>
      if c.maxSize < c.curSize ∧ 0 < c.li.length then
        match c.li.getLast? with
        | some b =>
            let r1 := removeUnlock c b.1
            let r2 := expireLoop fuel r1.1
            (r2.1, r1.2 ++ r2.2)
        | none => (c, [])
      else (c, [])

/-- `expireUnlock` of `src/unnamed/part_000`: run the eviction loop.  On
well-formed states each iteration removes one entry, so `c.li.length` units
of fuel realize the unbounded Go loop exactly (`expireLoop_fuel`). -/
def expireUnlock (c : Cache K V) : Cache K V × List (K × V) :=
  expireLoop c.li.length c

/-- `Put` of `src/unnamed/part_000`: update in place and move to front if
the key is present (old cost subtracted, new cost added), otherwise push a
fresh entry at the front and register it in the map; then run the eviction
loop. -/
def Put (c : Cache K V) (key : K) (value : V) : Cache K V × List (K × V) :=
  if key ∈ c.m then
    match lookupVal c.li key with
    | some oldv =>
        expireUnlock { c with
          curSize := c.curSize - c.sizeCal key oldv + c.sizeCal key value,
          li := (key, value) :: c.li.eraseP fun e => decide (e.1 = key) }
    | none => expireUnlock c
  else
    expireUnlock { c with
      li := (key, value) :: c.li,
      m := key :: c.m,
      curSize := c.curSize + c.sizeCal key value }

/-- `Get` of `src/unnamed/part_000`: on a hit, move the entry to the front
and return its value; on a miss return not-found and leave the state
untouched. -/
def Get (c : Cache K V) (key : K) : Option V × Cache K V :=
  if key ∈ c.m then
    match lookupVal c.li key with
    | some v => (some v, { c with li := moveToFront c.li key })
    | none => (none, c)
  else (none, c)

/-- `Remove` of `src/unnamed/part_000`. -/
def Remove (c : Cache K V) (key : K) : Cache K V × List (K × V) :=
  removeUnlock c key

/-- One step of the `RemoveIf` traversal: apply the predicate to the key
recorded before any removal, removing the entry when it matches. -/
def removeIfStep (p : K → Bool) (acc : Cache K V × List (K × V)) (k : K) :
    Cache K V × List (K × V) :=
  if p k then
    let r := removeUnlock acc.1 k
    (r.1, acc.2 ++ r.2)
  else acc

/-- `RemoveIf` of `src/unnamed/part_000`: a single front-to-back pass over
the recency list as it stood at call time (the Go code pre-captures the
`next` pointer before removing `cur`, so the visited elements are exactly
the elements of the initial list, in order). -/
def RemoveIf (c : Cache K V) (p : K → Bool) : Cache K V × List (K × V) :=
  (keysOf c.li).foldl (removeIfStep p) (c, [])

/-- `RemoveAll` of `src/unnamed/part_000`: invoke the callback once per map
entry (map iteration order), then reset the list, the map and the size. -/
def RemoveAll (c : Cache K V) : Cache K V × List (K × V) :=
  ({ li := [], m := [], sizeCal := c.sizeCal, maxSize := c.maxSize,
     curSize := 0 },
   c.m.filterMap fun k => (lookupVal c.li k).map fun v => (k, v))

/-- `Size` of `src/unnamed/part_000`. -/
def Size (c : Cache K V) : Int := c.curSize

/-- `Number` of `src/unnamed/part_000`. -/
def Number (c : Cache K V) : Nat := c.li.length

/-- `AllKeys` of `src/unnamed/part_000`: all keys in recency order, front to
back. -/
def AllKeys (c : Cache K V) : List K := keysOf c.li

end Va

/-- The public mutating operations of `src/unnamed/part_000`
(`Size`, `Number`, `AllKeys`, `Scan`, `LeastRecentlyUsed` read the state
without mutating it). -/
inductive Op (K V : Type) where
  | put (k : K) (v : V)
  | get (k : K)
  | remove (k : K)
  | removeIf (p : K → Bool)
  | removeAll

/-- Apply one public operation, returning the new state and the trace of
eviction-callback invocations. -/
def applyOp (c : Cache K V) : Op K V → Cache K V × List (K × V)
  | Op.put k v => Va.Put c k v
  | Op.get k => ((Va.Get c k).2, [])
  | Op.remove k => Va.Remove c k
  | Op.removeIf p => Va.RemoveIf c p
  | Op.removeAll => Va.RemoveAll c

/-- Run a sequence of public operations. -/
def runOps (c : Cache K V) (ops : List (Op K V)) : Cache K V :=
  ops.foldl (fun s op => (applyOp s op).1) c

/- Variant of `src/lru.go` (identical to `src/unnamed/part_000` except for
the operations it lacks and for `AllKeys`, which iterates the key map). -/
namespace Vb

/-- `New` of `src/lru.go`. -/
def New (maxSize : Int) (sizeCal : K → V → Int) : Cache K V :=
  { li := [], m := [], sizeCal := sizeCal, maxSize := maxSize, curSize := 0 }

/-- `removeUnlock` of `src/lru.go`. -/
def removeUnlock (c : Cache K V) (key : K) : Cache K V × List (K × V) :=
  if key ∈ c.m then
    match lookupVal c.li key with
    | some v =>
        ({ c with
            m := c.m.erase key,
            li := c.li.eraseP fun e => decide (e.1 = key),
            curSize := c.curSize - c.sizeCal key v }, [(key, v)])
    | none => (c, [])
  else (c, [])

/-- The eviction loop of `src/lru.go`, with explicit fuel. -/
def expireLoop : Nat → Cache K V → Cache K V × List (K × V)
  | 0, c => (c, [])
  | fuel + 1, c =>
      if c.maxSize < c.curSize ∧ 0 < c.li.length then
        match c.li.getLast? with
        | some b =>
            let r1 := removeUnlock c b.1
            let r2 := expireLoop fuel r1.1
            (r2.1, r1.2 ++ r2.2)
        | none => (c, [])
      else (c, [])

/-- `expireUnlock` of `src/lru.go`. -/
def expireUnlock (c : Cache K V) : Cache K V × List (K × V) :=
  expireLoop c.li.length c

/-- `Put` of `src/lru.go`. -/
def Put (c : Cache K V) (key : K) (value : V) : Cache K V × List (K × V) :=
  if key ∈ c.m then
    match lookupVal c.li key with
    | some oldv =>
        expireUnlock { c with
          curSize := c.curSize - c.sizeCal key oldv + c.sizeCal key value,
          li := (key, value) :: c.li.eraseP fun e => decide (e.1 = key) }
    | none => expireUnlock c
  else
    expireUnlock { c with
      li := (key, value) :: c.li,
      m := key :: c.m,
      curSize := c.curSize + c.sizeCal key value }

/-- `Get` of `src/lru.go`. -/
def Get (c : Cache K V) (key : K) : Option V × Cache K V :=
  if key ∈ c.m then
    match lookupVal c.li key with
    | some v => (some v, { c with li := moveToFront c.li key })
    | none => (none, c)
  else (none, c)

/-- `Remove` of `src/lru.go`. -/
def Remove (c : Cache K V) (key : K) : Cache K V × List (K × V) :=
  removeUnlock c key

/-- `RemoveAll` of `src/lru.go`. -/
def RemoveAll (c : Cache K V) : Cache K V × List (K × V) :=
  ({ li := [], m := [], sizeCal := c.sizeCal, maxSize := c.maxSize,
     curSize := 0 },
   c.m.filterMap fun k => (lookupVal c.li k).map fun v => (k, v))

/-- `Size` of `src/lru.go`. -/
def Size (c : Cache K V) : Int := c.curSize

/-- `Number` of `src/lru.go`. -/
def Number (c : Cache K V) : Nat := c.li.length

/-- `AllKeys` of `src/lru.go`: iterates the map `c.m` and collects the keys
(Go map iteration order is unspecified; the model fixes the order in which
the key set is represented). -/
def AllKeys (c : Cache K V) : List K := c.m

end Vb

/-- The mutating operations both variants share (`src/lru.go` has no
`RemoveIf`). -/
inductive BOp (K V : Type) where
  | put (k : K) (v : V)
  | get (k : K)
  | remove (k : K)
  | removeAll

/-- A shared operation, viewed as an operation of the full variant. -/
def toOp : BOp K V → Op K V
  | BOp.put k v => Op.put k v
  | BOp.get k => Op.get k
  | BOp.remove k => Op.remove k
  | BOp.removeAll => Op.removeAll

/-- Apply a shared operation in the `src/unnamed/part_000` variant. -/
def applyBOpA (c : Cache K V) : BOp K V → Cache K V × List (K × V)
  | BOp.put k v => Va.Put c k v
  | BOp.get k => ((Va.Get c k).2, [])
  | BOp.remove k => Va.Remove c k
  | BOp.removeAll => Va.RemoveAll c

/-- Apply a shared operation in the `src/lru.go` variant. -/
def applyBOpB (c : Cache K V) : BOp K V → Cache K V × List (K × V)
  | BOp.put k v => Vb.Put c k v
  | BOp.get k => ((Vb.Get c k).2, [])
  | BOp.remove k => Vb.Remove c k
  | BOp.removeAll => Vb.RemoveAll c

/-- Run a sequence of shared operations in the `src/unnamed/part_000`
variant, collecting the eviction-callback trace. -/
def runBOpsA (c : Cache K V) (ops : List (BOp K V)) :
    Cache K V × List (K × V) :=
  ops.foldl (fun r op => ((applyBOpA r.1 op).1, r.2 ++ (applyBOpA r.1 op).2))
    (c, [])

/-- Run a sequence of shared operations in the `src/lru.go` variant,
collecting the eviction-callback trace. -/
def runBOpsB (c : Cache K V) (ops : List (BOp K V)) :
    Cache K V × List (K × V) :=
  ops.foldl (fun r op => ((applyBOpB r.1 op).1, r.2 ++ (applyBOpB r.1 op).2))
    (c, [])

/-- Constant cost of 1 per entry: the default cost function the Go `New`
installs when `sizeCal` is `nil` (entry-count-bounded cache). -/
def unitCost : Nat → Nat → Int := fun _ _ => 1

/-- A cost function charging the (numeric) value itself. -/
def valCost : Nat → Nat → Int := fun _ v => (v : Int)

/-- Insert keys `0`, …, `n - 1` with themselves as values. -/
def putsUpTo (n : Nat) : List (Op Nat Nat) :=
  (List.range n).map fun i => Op.put i i

/-- The predicate of the spec's `remove_if` scenario: odd keys. -/
def oddKey : Nat → Bool := fun k => k % 2 != 0

/-- A concrete well-formed cache with two entries whose total cost exceeds
`maxSize`, exercising the eviction loop. -/
def cacheEx : Cache Nat Nat :=
  { li := [(1, 1), (2, 2)], m := [1, 2], sizeCal := unitCost,
    maxSize := 1, curSize := 2 }

/-- Well-formedness: the keys of the recency list are pairwise distinct
(each live key occupies exactly one list position), the key set of the map
is the key set of the recency list, and the running size is the total cost
of the resident entries. -/
def WF (c : Cache K V) : Prop :=
  (keysOf c.li).Nodup ∧ c.m.Perm (keysOf c.li) ∧
    c.curSize = sizeSum c.sizeCal c.li

theorem WF.nodup {c : Cache K V} (h : WF c) : (keysOf c.li).Nodup := h.1

theorem WF.perm {c : Cache K V} (h : WF c) : c.m.Perm (keysOf c.li) := h.2.1

theorem WF.size {c : Cache K V} (h : WF c) :
    c.curSize = sizeSum c.sizeCal c.li := h.2.2

theorem WF.mem_m_iff {c : Cache K V} (h : WF c) (k : K) :
    k ∈ c.m ↔ k ∈ keysOf c.li := h.2.1.mem_iff

@[simp] theorem keysOf_nil : keysOf ([] : List (K × V)) = [] := rfl

@[simp] theorem keysOf_cons (e : K × V) (l : List (K × V)) :
    keysOf (e :: l) = e.1 :: keysOf l := rfl

@[simp] theorem keysOf_append (l1 l2 : List (K × V)) :
    keysOf (l1 ++ l2) = keysOf l1 ++ keysOf l2 := List.map_append _ _ _

@[simp] theorem sizeSum_nil (f : K → V → Int) : sizeSum f [] = 0 := rfl

@[simp] theorem sizeSum_cons (f : K → V → Int) (e : K × V) (l : List (K × V)) :
    sizeSum f (e :: l) = f e.1 e.2 + sizeSum f l := rfl

@[simp] theorem sizeSum_append (f : K → V → Int) (l1 l2 : List (K × V)) :
    sizeSum f (l1 ++ l2) = sizeSum f l1 + sizeSum f l2 := by
  induction l1 with
  | nil => simp
  | cons e t ih => simp [ih]; ring

theorem sizeSum_reverse (f : K → V → Int) (l : List (K × V)) :
    sizeSum f l.reverse = sizeSum f l := by
  induction l with
  | nil => rfl
  | cons e t ih => simp [ih]; ring

theorem not_mem_keysOf {l : List (K × V)} {k : K} :
    k ∉ keysOf l ↔ ∀ e ∈ l, e.1 ≠ k := by
  constructor
  · intro h e he hek
    exact h (hek ▸ List.mem_map_of_mem Prod.fst he)
  · intro h hk
    obtain ⟨e, he, hek⟩ := List.mem_map.mp hk
    exact h e he hek

theorem mem_keys_split {li : List (K × V)} {k : K} (h : k ∈ keysOf li) :
    ∃ l1 v l2, li = l1 ++ (k, v) :: l2 ∧ ∀ e ∈ l1, e.1 ≠ k := by
  induction li with
  | nil => simp [keysOf] at h
  | cons e tl ih =>
    obtain ⟨a, b⟩ := e
    by_cases hk : a = k
    · subst hk
      exact ⟨[], b, tl, by simp, by simp⟩
    · have h2 : k ∈ keysOf tl := by
        simp [keysOf] at h ⊢
        rcases h with h | h
        · exact absurd h.symm hk
        · exact h
      obtain ⟨l1, v, l2, hli, h1⟩ := ih h2
      refine ⟨(a, b) :: l1, v, l2, by simp [hli], ?_⟩
      intro x hx
      rcases List.mem_cons.mp hx with hx | hx
      · simp [hx, hk]
      · exact h1 x hx

theorem find?_key_split (l1 : List (K × V)) (k : K) (v : V) (l2 : List (K × V))
    (h : ∀ e ∈ l1, e.1 ≠ k) :
    (l1 ++ (k, v) :: l2).find? (fun e => decide (e.1 = k)) = some (k, v) := by
  induction l1 with
  | nil => simp
  | cons a t ih =>
    have ha : a.1 ≠ k := h a (List.mem_cons_self a t)
    simp only [List.cons_append, List.find?_cons, decide_eq_true_eq]
    simp [ha, ih fun e he => h e (List.mem_cons_of_mem a he)]

theorem eraseP_key_split (l1 : List (K × V)) (k : K) (v : V) (l2 : List (K × V))
    (h : ∀ e ∈ l1, e.1 ≠ k) :
    (l1 ++ (k, v) :: l2).eraseP (fun e => decide (e.1 = k)) = l1 ++ l2 := by
  induction l1 with
  | nil => simp [List.eraseP_cons]
  | cons a t ih =>
    have ha : a.1 ≠ k := h a (List.mem_cons_self a t)
    simp [List.eraseP_cons, ha, ih fun e he => h e (List.mem_cons_of_mem a he)]

theorem erase_append_not_mem (l1 l2 : List K) (k : K) (h : k ∉ l1) :
    (l1 ++ k :: l2).erase k = l1 ++ l2 := by
  induction l1 with
  | nil => simp
  | cons a t ih =>
    have ha : a ≠ k := fun hak => h (hak ▸ List.mem_cons_self a t)
    simp only [List.cons_append, List.erase_cons]
    simp [ha, ih fun ht => h (List.mem_cons_of_mem a ht)]

theorem removeUnlock_not_mem {c : Cache K V} {k : K} (h : k ∉ c.m) :
    Va.removeUnlock c k = (c, []) := by
  simp [Va.removeUnlock, h]

theorem removeUnlock_split {c : Cache K V} {k : K} {v : V} {l1 l2 : List (K × V)}
    (hm : k ∈ c.m) (hli : c.li = l1 ++ (k, v) :: l2) (h1 : ∀ e ∈ l1, e.1 ≠ k) :
    Va.removeUnlock c k =
      ({ c with
          m := c.m.erase k,
          li := l1 ++ l2,
          curSize := c.curSize - c.sizeCal k v }, [(k, v)]) := by
  have hf : lookupVal c.li k = some v := by
    rw [hli, lookupVal, find?_key_split _ _ _ _ h1]
    rfl
  have he : c.li.eraseP (fun e => decide (e.1 = k)) = l1 ++ l2 := by
    rw [hli]
    exact eraseP_key_split _ _ _ _ h1
  simp [Va.removeUnlock, hm, hf, he]

theorem removeUnlock_wf {c : Cache K V} (hwf : WF c) (k : K) :
    WF (Va.removeUnlock c k).1 ∧ (Va.removeUnlock c k).1.maxSize = c.maxSize ∧
      (Va.removeUnlock c k).1.sizeCal = c.sizeCal := by
  by_cases hm : k ∈ c.m
  · have hk : k ∈ keysOf c.li := (hwf.mem_m_iff k).1 hm
    obtain ⟨l1, v, l2, hli, h1⟩ := mem_keys_split hk
    rw [removeUnlock_split hm hli h1]
    refine ⟨⟨?_, ?_, ?_⟩, rfl, rfl⟩
    · have hsub : List.Sublist (keysOf l1 ++ keysOf l2)
          (keysOf l1 ++ k :: keysOf l2) :=
        (List.sublist_cons_self k (keysOf l2)).append_left (keysOf l1)
      have hnd := hwf.nodup
      rw [hli] at hnd
      simp only [keysOf_append, keysOf_cons] at hnd
      simpa [keysOf] using hnd.sublist hsub
    · have hp := hwf.perm
      rw [hli] at hp
      have he := hp.erase k
      have hknot : k ∉ keysOf l1 := not_mem_keysOf.mpr h1
      rw [show keysOf (l1 ++ (k, v) :: l2) = keysOf l1 ++ k :: keysOf l2 by simp,
          erase_append_not_mem _ _ _ hknot] at he
      simpa [keysOf] using he
    · have hs := hwf.size
      rw [hli] at hs
      simp at hs ⊢
      omega
  · rw [removeUnlock_not_mem hm]
    exact ⟨hwf, rfl, rfl⟩

theorem back_split {c : Cache K V} (hwf : WF c) {l1 : List (K × V)}
    {b : K × V} (hli : c.li = l1 ++ [b]) :
    b.1 ∈ c.m ∧ (∀ e ∈ l1, e.1 ≠ b.1) ∧
      Va.removeUnlock c b.1 =
        ({ c with
            m := c.m.erase b.1,
            li := l1,
            curSize := c.curSize - c.sizeCal b.1 b.2 }, [b]) := by
  have hmem : b.1 ∈ keysOf c.li := by
    rw [hli]
    simp
  have hm : b.1 ∈ c.m := (hwf.mem_m_iff b.1).2 hmem
  have hnd := hwf.nodup
  rw [hli] at hnd
  simp only [keysOf_append, keysOf_cons, keysOf_nil] at hnd
  have hnotin : b.1 ∉ keysOf l1 := by
    intro hb
    exact (List.disjoint_of_nodup_append hnd) hb (List.mem_singleton.mpr rfl)
  have h1 : ∀ e ∈ l1, e.1 ≠ b.1 := not_mem_keysOf.mp hnotin
  have hs := removeUnlock_split hm
    (show c.li = l1 ++ (b.1, b.2) :: [] by rw [hli]) h1
  rw [List.append_nil] at hs
  exact ⟨hm, h1, hs⟩

theorem expireLoop_spec :
    ∀ (fuel : Nat) (c : Cache K V), WF c → c.li.length ≤ fuel →
    WF (Va.expireLoop fuel c).1 ∧
    (Va.expireLoop fuel c).1.maxSize = c.maxSize ∧
    (Va.expireLoop fuel c).1.sizeCal = c.sizeCal ∧
    c.li = (Va.expireLoop fuel c).1.li ++ (Va.expireLoop fuel c).2.reverse ∧
    ((Va.expireLoop fuel c).1.curSize ≤ c.maxSize ∨
      (Va.expireLoop fuel c).1.li = []) ∧
    (∀ e rest, c.li = e :: rest → (Va.expireLoop fuel c).1.li = [] →
      c.maxSize < c.sizeCal e.1 e.2) := by
  intro fuel
  induction fuel with
  | zero =>
    intro c hwf hlen
    have hnil : c.li = [] := List.eq_nil_of_length_eq_zero (Nat.le_zero.mp hlen)
    refine ⟨hwf, rfl, rfl, by simp [Va.expireLoop], Or.inr hnil, ?_⟩
    intro e rest he _
    rw [hnil] at he
    exact absurd he (by simp)
  | succ fuel ih =>
    intro c hwf hlen
    by_cases hg : c.maxSize < c.curSize ∧ 0 < c.li.length
    · obtain ⟨hsz, hlen0⟩ := hg
      have hne : c.li ≠ [] := by
        intro h
        rw [h] at hlen0
        exact absurd hlen0 (by simp)
      rcases List.eq_nil_or_concat c.li with hnil | ⟨l1, b, hli⟩
      · exact absurd hnil hne
      rw [List.concat_eq_append] at hli
      obtain ⟨hm, h1, hsplit⟩ := back_split hwf hli
      set c2 : Cache K V :=
        { c with
            m := c.m.erase b.1,
            li := l1,
            curSize := c.curSize - c.sizeCal b.1 b.2 } with hc2
      have hlast : c.li.getLast? = some b := by
        rw [hli]
        exact List.getLast?_concat l1
      have hstep : Va.expireLoop (fuel + 1) c =
          ((Va.expireLoop fuel c2).1, b :: (Va.expireLoop fuel c2).2) := by
        simp only [Va.expireLoop, if_pos (And.intro hsz hlen0), hlast, hsplit,
          List.singleton_append]
      have hwf2 : WF c2 := by
        have := (removeUnlock_wf hwf b.1).1
        rw [hsplit] at this
        exact this
      have hlen2 : c2.li.length ≤ fuel := by
        have : c.li.length = l1.length + 1 := by
          rw [hli]
          simp
        simp only [hc2]
        omega
      obtain ⟨ihwf, ihmax, ihsize, ihdec, ihguard, ihhead⟩ := ih c2 hwf2 hlen2
      rw [hstep]
      refine ⟨ihwf, ihmax, ihsize, ?_, ?_, ?_⟩
      · rw [hli]
        simp only [List.reverse_cons]
        rw [← List.append_assoc, ← ihdec]
      · rcases ihguard with h | h
        · exact Or.inl h
        · exact Or.inr h
      · intro e rest he hnil2
        rcases l1 with _ | ⟨a, t⟩
        · have heb : e = b := by
            rw [hli] at he
            simp at he
            exact he.1.symm
          have hcs : c.curSize = c.sizeCal e.1 e.2 := by
            have := hwf.size
            rw [hli] at this
            simp at this
            rw [heb]
            exact this
          rw [← hcs]
          exact hsz
        · have hea : e = a := by
            rw [hli] at he
            simp at he
            exact he.1.symm
          have hc2li : c2.li = e :: t := by
            simp only [hc2]
            rw [hea]
          have := ihhead e t hc2li hnil2
          simpa only [hc2] using this
    · have hstep : Va.expireLoop (fuel + 1) c = (c, []) := by
        simp only [Va.expireLoop, if_neg hg]
      rw [hstep]
      refine ⟨hwf, rfl, rfl, by simp, ?_, ?_⟩
      · rcases not_and_or.mp hg with h | h
        · exact Or.inl (le_of_not_lt h)
        · exact Or.inr (by
            have : c.li.length = 0 := by omega
            exact List.eq_nil_of_length_eq_zero this)
      · intro e rest he hnil
        rw [he] at hnil
        exact absurd hnil (by simp)

theorem expireLoop_fuel_succ :
    ∀ (fuel : Nat) (c : Cache K V), WF c → c.li.length ≤ fuel →
    Va.expireLoop (fuel + 1) c = Va.expireLoop fuel c := by
  intro fuel
  induction fuel with
  | zero =>
    intro c hwf hlen
    have hnil : c.li = [] := List.eq_nil_of_length_eq_zero (Nat.le_zero.mp hlen)
    have : ¬ (c.maxSize < c.curSize ∧ 0 < c.li.length) := by
      rw [hnil]
      simp
    simp only [Va.expireLoop, if_neg this]
  | succ fuel ih =>
    intro c hwf hlen
    by_cases hg : c.maxSize < c.curSize ∧ 0 < c.li.length
    · obtain ⟨hsz, hlen0⟩ := hg
      rcases List.eq_nil_or_concat c.li with hnil | ⟨l1, b, hli⟩
      · rw [hnil] at hlen0
        exact absurd hlen0 (by simp)
      rw [List.concat_eq_append] at hli
      obtain ⟨hm, h1, hsplit⟩ := back_split hwf hli
      set c2 : Cache K V :=
        { c with
            m := c.m.erase b.1,
            li := l1,
            curSize := c.curSize - c.sizeCal b.1 b.2 } with hc2
      have hlast : c.li.getLast? = some b := by
        rw [hli]
        exact List.getLast?_concat l1
      have hwf2 : WF c2 := by
        have := (removeUnlock_wf hwf b.1).1
        rw [hsplit] at this
        exact this
      have hlen2 : c2.li.length ≤ fuel := by
        have : c.li.length = l1.length + 1 := by
          rw [hli]
          simp
        simp only [hc2]
        omega
      have e1 : Va.expireLoop (fuel + 1 + 1) c =
          ((Va.expireLoop (fuel + 1) c2).1, b :: (Va.expireLoop (fuel + 1) c2).2) := by
        simp only [Va.expireLoop, if_pos (And.intro hsz hlen0), hlast, hsplit,
          List.singleton_append]
      have e2 : Va.expireLoop (fuel + 1) c =
          ((Va.expireLoop fuel c2).1, b :: (Va.expireLoop fuel c2).2) := by
        simp only [Va.expireLoop, if_pos (And.intro hsz hlen0), hlast, hsplit,
          List.singleton_append]
      rw [e1, e2, ih c2 hwf2 hlen2]
    · have e1 : Va.expireLoop (fuel + 1 + 1) c = (c, []) := by
        simp only [Va.expireLoop, if_neg hg]
      have e2 : Va.expireLoop (fuel + 1) c = (c, []) := by
        simp only [Va.expireLoop, if_neg hg]
      rw [e1, e2]

/-- Termination of the eviction loop: any fuel at least the entry count
yields the result of `expireUnlock`, i.e. the Go loop finishes within
`c.li.length` iterations on well-formed states. -/
theorem expireLoop_fuel {c : Cache K V} (hwf : WF c) :
    ∀ fuel, c.li.length ≤ fuel → Va.expireLoop fuel c = Va.expireUnlock c := by
  have hbase : ∀ d, Va.expireLoop (c.li.length + d) c = Va.expireUnlock c := by
    intro d
    induction d with
    | zero => rfl
    | succ d ihd =>
      have h1 : c.li.length + (d + 1) = (c.li.length + d) + 1 := by omega
      rw [h1, expireLoop_fuel_succ (c.li.length + d) c hwf (by omega), ihd]
  intro fuel hfuel
  have : fuel = c.li.length + (fuel - c.li.length) := by omega
  rw [this]
  exact hbase _

theorem expireUnlock_spec {c : Cache K V} (hwf : WF c) :
    WF (Va.expireUnlock c).1 ∧
    (Va.expireUnlock c).1.maxSize = c.maxSize ∧
    (Va.expireUnlock c).1.sizeCal = c.sizeCal ∧
    c.li = (Va.expireUnlock c).1.li ++ (Va.expireUnlock c).2.reverse ∧
    ((Va.expireUnlock c).1.curSize ≤ c.maxSize ∨ (Va.expireUnlock c).1.li = []) ∧
    (∀ e rest, c.li = e :: rest → (Va.expireUnlock c).1.li = [] →
      c.maxSize < c.sizeCal e.1 e.2) :=
  expireLoop_spec c.li.length c hwf le_rfl

theorem put_not_mem {c : Cache K V} {k : K} (v : V) (hm : k ∉ c.m) :
    Va.Put c k v = Va.expireUnlock
      { c with
          li := (k, v) :: c.li,
          m := k :: c.m,
          curSize := c.curSize + c.sizeCal k v } := by
  simp [Va.Put, hm]

theorem put_mem {c : Cache K V} {k : K} {v1 : V} (v : V) {l1 l2 : List (K × V)}
    (hm : k ∈ c.m) (hli : c.li = l1 ++ (k, v1) :: l2)
    (h1 : ∀ e ∈ l1, e.1 ≠ k) :
    Va.Put c k v = Va.expireUnlock
      { c with
          curSize := c.curSize - c.sizeCal k v1 + c.sizeCal k v,
          li := (k, v) :: (l1 ++ l2) } := by
  have hf : lookupVal c.li k = some v1 := by
    rw [hli, lookupVal, find?_key_split _ _ _ _ h1]
    rfl
  have he : c.li.eraseP (fun e => decide (e.1 = k)) = l1 ++ l2 := by
    rw [hli]
    exact eraseP_key_split _ _ _ _ h1
  simp [Va.Put, hm, hf, he]

theorem wf_put_new {c : Cache K V} (hwf : WF c) {k : K} (v : V)
    (hk : k ∉ keysOf c.li) :
    WF { c with
          li := (k, v) :: c.li,
          m := k :: c.m,
          curSize := c.curSize + c.sizeCal k v } := by
  refine ⟨?_, ?_, ?_⟩
  · simp only [keysOf_cons]
    exact List.nodup_cons.mpr ⟨hk, hwf.nodup⟩
  · simp only [keysOf_cons]
    exact hwf.perm.cons k
  · have hs := hwf.size
    simp only [sizeSum_cons]
    omega

theorem wf_put_update {c : Cache K V} (hwf : WF c) {k : K} {v1 : V} (v : V)
    {l1 l2 : List (K × V)} (hli : c.li = l1 ++ (k, v1) :: l2) :
    WF { c with
          curSize := c.curSize - c.sizeCal k v1 + c.sizeCal k v,
          li := (k, v) :: (l1 ++ l2) } := by
  have hnd := hwf.nodup
  have hp := hwf.perm
  have hs := hwf.size
  rw [hli] at hnd hp hs
  simp only [keysOf_append, keysOf_cons] at hnd hp
  refine ⟨?_, ?_, ?_⟩
  · simp only [keysOf_cons, keysOf_append]
    exact List.perm_middle.nodup hnd
  · simp only [keysOf_cons, keysOf_append]
    exact hp.trans List.perm_middle
  · simp only [sizeSum_cons, sizeSum_append] at hs ⊢
    omega

theorem wf_move {c : Cache K V} (hwf : WF c) {k : K} {v : V}
    {l1 l2 : List (K × V)} (hli : c.li = l1 ++ (k, v) :: l2) :
    WF { c with li := (k, v) :: (l1 ++ l2) } := by
  have hnd := hwf.nodup
  have hp := hwf.perm
  have hs := hwf.size
  rw [hli] at hnd hp hs
  simp only [keysOf_append, keysOf_cons] at hnd hp
  refine ⟨?_, ?_, ?_⟩
  · simp only [keysOf_cons, keysOf_append]
    exact List.perm_middle.nodup hnd
  · simp only [keysOf_cons, keysOf_append]
    exact hp.trans List.perm_middle
  · simp only [sizeSum_cons, sizeSum_append] at hs ⊢
    omega

theorem get_not_mem {c : Cache K V} (hwf : WF c) {k : K}
    (hk : k ∉ keysOf c.li) : Va.Get c k = (none, c) := by
  have hm : k ∉ c.m := fun h => hk ((hwf.mem_m_iff k).1 h)
  simp [Va.Get, hm]

theorem get_mem {c : Cache K V} (hwf : WF c) {k : K} {v : V}
    {l1 l2 : List (K × V)} (hli : c.li = l1 ++ (k, v) :: l2)
    (h1 : ∀ e ∈ l1, e.1 ≠ k) :
    Va.Get c k = (some v, { c with li := (k, v) :: (l1 ++ l2) }) := by
  have hm : k ∈ c.m := (hwf.mem_m_iff k).2 (by rw [hli]; simp)
  have hfind : c.li.find? (fun e => decide (e.1 = k)) = some (k, v) := by
    rw [hli]
    exact find?_key_split _ _ _ _ h1
  have hf : lookupVal c.li k = some v := by
    rw [lookupVal, hfind]
    rfl
  have he : c.li.eraseP (fun e => decide (e.1 = k)) = l1 ++ l2 := by
    rw [hli]
    exact eraseP_key_split _ _ _ _ h1
  simp [Va.Get, hm, hf, moveToFront, hfind, he]

theorem removeIf_go {p : K → Bool} :
    ∀ (suf : List (K × V)) (c : Cache K V) (done acc : List (K × V)),
      WF c → c.li = done ++ suf →
      WF ((keysOf suf).foldl (Va.removeIfStep p) (c, acc)).1 ∧
      ((keysOf suf).foldl (Va.removeIfStep p) (c, acc)).1.maxSize = c.maxSize ∧
      ((keysOf suf).foldl (Va.removeIfStep p) (c, acc)).1.sizeCal = c.sizeCal ∧
      ((keysOf suf).foldl (Va.removeIfStep p) (c, acc)).1.li =
        done ++ suf.filter (fun e => !(p e.1)) ∧
      ((keysOf suf).foldl (Va.removeIfStep p) (c, acc)).2 =
        acc ++ suf.filter (fun e => p e.1) := by
  intro suf
  induction suf with
  | nil =>
    intro c done acc hwf hli
    refine ⟨hwf, rfl, rfl, ?_, by simp⟩
    simpa using hli
  | cons e t iht =>
    intro c done acc hwf hli
    obtain ⟨k, v⟩ := e
    have hnd := hwf.nodup
    rw [hli] at hnd
    simp only [keysOf_append, keysOf_cons] at hnd
    by_cases hp : p k
    · have hknotin : k ∉ keysOf done := fun hk =>
        (List.disjoint_of_nodup_append hnd) hk (List.mem_cons_self _ _)
      have h1 : ∀ x ∈ done, x.1 ≠ k := not_mem_keysOf.mp hknotin
      have hm : k ∈ c.m := (hwf.mem_m_iff k).2 (by rw [hli]; simp)
      have hsplit := removeUnlock_split hm
        (show c.li = done ++ (k, v) :: t from hli) h1
      set c2 : Cache K V :=
        { c with
            m := c.m.erase k,
            li := done ++ t,
            curSize := c.curSize - c.sizeCal k v } with hc2
      have hwf2 : WF c2 := by
        have := (removeUnlock_wf hwf k).1
        rw [hsplit] at this
        exact this
      have hstep : Va.removeIfStep p (c, acc) k = (c2, acc ++ [(k, v)]) := by
        simp [Va.removeIfStep, hp, hsplit]
      have hfold : (keysOf ((k, v) :: t)).foldl (Va.removeIfStep p) (c, acc) =
          (keysOf t).foldl (Va.removeIfStep p) (c2, acc ++ [(k, v)]) := by
        simp only [keysOf_cons, List.foldl_cons, hstep]
      obtain ⟨iw, imax, isiz, ili, itr⟩ :=
        iht c2 done (acc ++ [(k, v)]) hwf2 (by simp [hc2])
      rw [hfold]
      refine ⟨iw, imax, isiz, ?_, ?_⟩
      · rw [ili]
        simp [hp]
      · rw [itr]
        simp [hp]
    · have hfold : (keysOf ((k, v) :: t)).foldl (Va.removeIfStep p) (c, acc) =
          (keysOf t).foldl (Va.removeIfStep p) (c, acc) := by
        simp only [keysOf_cons, List.foldl_cons]
        simp [Va.removeIfStep, hp]
      obtain ⟨iw, imax, isiz, ili, itr⟩ :=
        iht c (done ++ [(k, v)]) acc hwf (by rw [hli]; simp)
      rw [hfold]
      refine ⟨iw, imax, isiz, ?_, ?_⟩
      · rw [ili]
        simp [hp]
      · rw [itr]
        simp [hp]

theorem removeIf_spec {c : Cache K V} (hwf : WF c) (p : K → Bool) :
    WF (Va.RemoveIf c p).1 ∧ (Va.RemoveIf c p).1.maxSize = c.maxSize ∧
    (Va.RemoveIf c p).1.sizeCal = c.sizeCal ∧
    (Va.RemoveIf c p).1.li = c.li.filter (fun e => !(p e.1)) ∧
    (Va.RemoveIf c p).2 = c.li.filter (fun e => p e.1) := by
  have h := removeIf_go (p := p) c.li c [] [] hwf (by simp)
  simpa [Va.RemoveIf] using h

theorem wf_new (maxSize : Int) (f : K → V → Int) :
    WF (Va.New (K := K) (V := V) maxSize f) :=
  ⟨List.nodup_nil, List.Perm.refl _, rfl⟩

theorem wf_removeAll {c : Cache K V} :
    WF (Va.RemoveAll c).1 ∧ (Va.RemoveAll c).1.maxSize = c.maxSize ∧
      (Va.RemoveAll c).1.sizeCal = c.sizeCal :=
  ⟨⟨List.nodup_nil, List.Perm.refl _, rfl⟩, rfl, rfl⟩

theorem applyOp_inv {c : Cache K V} (hwf : WF c) (op : Op K V) :
    WF (applyOp c op).1 ∧ (applyOp c op).1.maxSize = c.maxSize ∧
      (applyOp c op).1.sizeCal = c.sizeCal := by
  cases op with
  | put k v =>
    simp only [applyOp]
    by_cases hk : k ∈ keysOf c.li
    · obtain ⟨l1, v1, l2, hli, h1⟩ := mem_keys_split hk
      have hm : k ∈ c.m := (hwf.mem_m_iff k).2 hk
      rw [put_mem v hm hli h1]
      have hspec := expireUnlock_spec (wf_put_update hwf v hli)
      exact ⟨hspec.1, hspec.2.1, hspec.2.2.1⟩
    · have hm : k ∉ c.m := fun h => hk ((hwf.mem_m_iff k).1 h)
      rw [put_not_mem v hm]
      have hspec := expireUnlock_spec (wf_put_new hwf v hk)
      exact ⟨hspec.1, hspec.2.1, hspec.2.2.1⟩
  | get k =>
    simp only [applyOp]
    by_cases hk : k ∈ keysOf c.li
    · obtain ⟨l1, v, l2, hli, h1⟩ := mem_keys_split hk
      rw [get_mem hwf hli h1]
      exact ⟨wf_move hwf hli, rfl, rfl⟩
    · rw [get_not_mem hwf hk]
      exact ⟨hwf, rfl, rfl⟩
  | remove k => exact removeUnlock_wf hwf k
  | removeIf p =>
    have h := removeIf_spec hwf p
    exact ⟨h.1, h.2.1, h.2.2.1⟩
  | removeAll => exact wf_removeAll

theorem runOps_inv {c : Cache K V} (hwf : WF c) :
    ∀ ops : List (Op K V), WF (runOps c ops) ∧
      (runOps c ops).maxSize = c.maxSize ∧
      (runOps c ops).sizeCal = c.sizeCal := by
  intro ops
  induction ops generalizing c with
  | nil => exact ⟨hwf, rfl, rfl⟩
  | cons op t ih =>
    obtain ⟨h1, h2, h3⟩ := applyOp_inv hwf op
    obtain ⟨g1, g2, g3⟩ := ih h1
    exact ⟨g1, g2.trans h2, g3.trans h3⟩

/-- Well-formedness of every state reachable from `New` by public
operations. -/
theorem wf_runOps (maxSize : Int) (f : K → V → Int) (ops : List (Op K V)) :
    WF (runOps (Va.New (K := K) (V := V) maxSize f) ops) :=
  (runOps_inv (wf_new maxSize f) ops).1

theorem sizeSum_filter_le (f : K → V → Int) (hf : ∀ k v, 0 ≤ f k v)
    (q : K × V → Bool) (li : List (K × V)) :
    sizeSum f (li.filter q) ≤ sizeSum f li := by
  induction li with
  | nil => simp
  | cons e t ih =>
    rw [List.filter_cons]
    by_cases hq : q e = true
    · rw [if_pos hq]
      simp only [sizeSum_cons]
      omega
    · rw [if_neg hq]
      have := hf e.1 e.2
      simp only [sizeSum_cons]
      omega

theorem applyOp_size {c : Cache K V} (hwf : WF c) (hmax : 0 ≤ c.maxSize)
    (hf : ∀ k v, 0 ≤ c.sizeCal k v) (hcur : c.curSize ≤ c.maxSize)
    (op : Op K V) : (applyOp c op).1.curSize ≤ c.maxSize := by
  cases op with
  | put k v =>
    show (Va.Put c k v).1.curSize ≤ c.maxSize
    have key : ∀ c1 : Cache K V, WF c1 → c1.maxSize = c.maxSize →
        (Va.expireUnlock c1).1.curSize ≤ c.maxSize := by
      intro c1 hwf1 hmax1
      obtain ⟨rwf, rmax, rsiz, rdec, rguard, rhead⟩ := expireUnlock_spec hwf1
      rcases rguard with h | h
      · omega
      · have := rwf.size
        rw [h] at this
        simp at this
        omega
    by_cases hk : k ∈ keysOf c.li
    · obtain ⟨l1, v1, l2, hli, h1⟩ := mem_keys_split hk
      have hm : k ∈ c.m := (hwf.mem_m_iff k).2 hk
      rw [put_mem v hm hli h1]
      exact key _ (wf_put_update hwf v hli) rfl
    · have hm : k ∉ c.m := fun h => hk ((hwf.mem_m_iff k).1 h)
      rw [put_not_mem v hm]
      exact key _ (wf_put_new hwf v hk) rfl
  | get k =>
    show (Va.Get c k).2.curSize ≤ c.maxSize
    by_cases hk : k ∈ keysOf c.li
    · obtain ⟨l1, v, l2, hli, h1⟩ := mem_keys_split hk
      rw [get_mem hwf hli h1]
      exact hcur
    · rw [get_not_mem hwf hk]
      exact hcur
  | remove k =>
    show (Va.removeUnlock c k).1.curSize ≤ c.maxSize
    by_cases hm : k ∈ c.m
    · have hk : k ∈ keysOf c.li := (hwf.mem_m_iff k).1 hm
      obtain ⟨l1, v, l2, hli, h1⟩ := mem_keys_split hk
      rw [removeUnlock_split hm hli h1]
      have := hf k v
      simp only []
      omega
    · rw [removeUnlock_not_mem hm]
      exact hcur
  | removeIf p =>
    show (Va.RemoveIf c p).1.curSize ≤ c.maxSize
    obtain ⟨rwf, rmax, rsiz, rli, rtr⟩ := removeIf_spec hwf p
    have h1 := rwf.size
    rw [rli, rsiz] at h1
    have h2 := sizeSum_filter_le c.sizeCal hf (fun e => !(p e.1)) c.li
    have h3 := hwf.size
    omega
  | removeAll =>
    show (Va.RemoveAll c).1.curSize ≤ c.maxSize
    exact hmax

theorem runOps_size {c : Cache K V} (hwf : WF c) (hmax : 0 ≤ c.maxSize)
    (hf : ∀ k v, 0 ≤ c.sizeCal k v) (hcur : c.curSize ≤ c.maxSize) :
    ∀ ops : List (Op K V), (runOps c ops).curSize ≤ (runOps c ops).maxSize := by
  intro ops
  induction ops generalizing c with
  | nil => exact hcur
  | cons op t ih =>
    obtain ⟨h1, h2, h3⟩ := applyOp_inv hwf op
    exact ih h1 (h2 ▸ hmax) (fun k v => h3 ▸ hf k v)
      ((applyOp_size hwf hmax hf hcur op).trans_eq h2.symm)

theorem sizeSum_nonneg (f : K → V → Int) (hf : ∀ k v, 0 ≤ f k v)
    (li : List (K × V)) : 0 ≤ sizeSum f li := by
  induction li with
  | nil => simp
  | cons e t ih =>
    have := hf e.1 e.2
    simp only [sizeSum_cons]
    omega

theorem sizeSum_pos (f : K → V → Int) (hf : ∀ k v, 0 < f k v)
    {li : List (K × V)} (h : li ≠ []) : 0 < sizeSum f li := by
  cases li with
  | nil => exact absurd rfl h
  | cons e t =>
    have h1 := hf e.1 e.2
    have h2 := sizeSum_nonneg f (fun k v => le_of_lt (hf k v)) t
    simp only [sizeSum_cons]
    omega

theorem lookup_some_split {li : List (K × V)} {k : K} {v1 : V}
    (hres : lookupVal li k = some v1) :
    ∃ l1 l2, li = l1 ++ (k, v1) :: l2 ∧ ∀ e ∈ l1, e.1 ≠ k := by
  cases hf : li.find? (fun x => decide (x.1 = k)) with
  | none =>
    rw [lookupVal, hf] at hres
    exact absurd hres (by simp)
  | some e =>
    have hev : e.2 = v1 := by
      rw [lookupVal, hf] at hres
      simpa using hres
    have hek : e.1 = k :=
      of_decide_eq_true
        (List.find?_some (p := fun x : K × V => decide (x.1 = k)) hf)
    have hmem : e ∈ li := List.mem_of_find?_eq_some hf
    have hkk : k ∈ keysOf li := by
      rw [← hek]
      exact List.mem_map_of_mem Prod.fst hmem
    obtain ⟨l1, w, l2, hli, h1⟩ := mem_keys_split hkk
    have hfw : li.find? (fun x => decide (x.1 = k)) = some (k, w) := by
      rw [hli]
      exact find?_key_split _ _ _ _ h1
    rw [hf] at hfw
    have hew : e = (k, w) := Option.some.inj hfw
    have hwv : w = v1 := by
      rw [hew] at hev
      exact hev
    rw [hwv] at hli
    exact ⟨l1, l2, hli, h1⟩

theorem put_front {c : Cache K V} (hwf : WF c) (k : K) (v : V) :
    ∃ c1 : Cache K V, Va.Put c k v = Va.expireUnlock c1 ∧ WF c1 ∧
      c1.maxSize = c.maxSize ∧ c1.sizeCal = c.sizeCal ∧
      ∃ rest, c1.li = (k, v) :: rest := by
  by_cases hk : k ∈ keysOf c.li
  · obtain ⟨l1, v1, l2, hli, h1⟩ := mem_keys_split hk
    have hm : k ∈ c.m := (hwf.mem_m_iff k).2 hk
    exact ⟨_, put_mem v hm hli h1, wf_put_update hwf v hli, rfl, rfl,
      l1 ++ l2, rfl⟩
  · have hm : k ∉ c.m := fun h => hk ((hwf.mem_m_iff k).1 h)
    exact ⟨_, put_not_mem v hm, wf_put_new hwf v hk, rfl, rfl, c.li, rfl⟩

theorem expire_front {c1 : Cache K V} (hwf1 : WF c1) {k : K} {v : V}
    {rest : List (K × V)} (hli : c1.li = (k, v) :: rest) :
    (∀ e ∈ (Va.expireUnlock c1).2.dropLast, e.1 ≠ k) ∧
    (∀ e, (Va.expireUnlock c1).2.getLast? = some e → e.1 = k →
      (Va.expireUnlock c1).1.li = []) ∧
    ((Va.expireUnlock c1).1.li = [] → c1.maxSize < c1.sizeCal k v) ∧
    ((Va.expireUnlock c1).1.li ≠ [] →
      ∃ rest2, (Va.expireUnlock c1).1.li = (k, v) :: rest2 ∧
        ∀ e ∈ (Va.expireUnlock c1).2, e.1 ≠ k) ∧
    ((Va.expireUnlock c1).1.li = [] →
      (Va.expireUnlock c1).2.getLast? = some (k, v)) := by
  obtain ⟨rwf, rmax, rsiz, rdec, rguard, rhead⟩ := expireUnlock_spec hwf1
  have hknotin : k ∉ keysOf rest := by
    have hnd := hwf1.nodup
    rw [hli] at hnd
    simp only [keysOf_cons] at hnd
    exact (List.nodup_cons.mp hnd).1
  have hrest : ∀ e ∈ rest, e.1 ≠ k := not_mem_keysOf.mp hknotin
  cases hpost : (Va.expireUnlock c1).1.li with
  | nil =>
    rw [hpost, List.nil_append] at rdec
    have htr : (Va.expireUnlock c1).2 = rest.reverse ++ [(k, v)] := by
      have hrev : (Va.expireUnlock c1).2.reverse = (k, v) :: rest := by
        rw [← rdec, hli]
      calc (Va.expireUnlock c1).2
          = (Va.expireUnlock c1).2.reverse.reverse :=
            (List.reverse_reverse _).symm
        _ = ((k, v) :: rest).reverse := by rw [hrev]
        _ = rest.reverse ++ [(k, v)] := by simp
    refine ⟨?_, ?_, ?_, ?_, ?_⟩
    · intro e he
      rw [htr, List.dropLast_concat] at he
      exact hrest e (List.mem_reverse.mp he)
    · intro e _ _
      rfl
    · intro _
      exact rhead (k, v) rest hli hpost
    · intro hne
      exact absurd rfl hne
    · intro _
      rw [htr]
      exact List.getLast?_concat _
  | cons e0 tl =>
    rw [hpost, hli, List.cons_append] at rdec
    injection rdec with h1 h2
    have hktr : ∀ e ∈ (Va.expireUnlock c1).2, e.1 ≠ k := by
      intro e he
      have hmem : e ∈ rest := by
        rw [h2]
        exact List.mem_append_right _ (List.mem_reverse.mpr he)
      exact hrest e hmem
    refine ⟨?_, ?_, ?_, ?_, ?_⟩
    · intro e he
      exact hktr e (List.dropLast_subset _ he)
    · intro e hl hek
      exact absurd hek (hktr e (List.mem_of_mem_getLast? hl))
    · intro h0
      exact absurd h0 (by simp)
    · intro _
      exact ⟨tl, by rw [← h1], hktr⟩
    · intro h0
      exact absurd h0 (by simp)

theorem vb_removeUnlock_eq :
    @Vb.removeUnlock K V _ = @Va.removeUnlock K V _ := rfl

theorem vb_expireLoop_eq :
    ∀ (fuel : Nat) (c : Cache K V), Vb.expireLoop fuel c = Va.expireLoop fuel c := by
  intro fuel
  induction fuel with
  | zero => intro c; rfl
  | succ fuel ih =>
    intro c
    by_cases hg : c.maxSize < c.curSize ∧ 0 < c.li.length
    · simp only [Vb.expireLoop, Va.expireLoop, if_pos hg]
      cases hlast : c.li.getLast? with
      | none => rfl
      | some b =>
        simp only [vb_removeUnlock_eq, ih]
    · simp only [Vb.expireLoop, Va.expireLoop, if_neg hg]

theorem vb_expireUnlock_eq (c : Cache K V) :
    Vb.expireUnlock c = Va.expireUnlock c :=
  vb_expireLoop_eq c.li.length c

theorem vb_put_eq (c : Cache K V) (k : K) (v : V) :
    Vb.Put c k v = Va.Put c k v := by
  simp only [Vb.Put, Va.Put, vb_expireUnlock_eq]

theorem applyBOp_eq (c : Cache K V) (op : BOp K V) :
    applyBOpB c op = applyBOpA c op := by
  cases op with
  | put k v =>
    simp only [applyBOpB, applyBOpA]
    rw [vb_put_eq]
  | get k => rfl
  | remove k => rfl
  | removeAll => rfl

theorem runBOps_eq (c : Cache K V) (ops : List (BOp K V)) :
    runBOpsB c ops = runBOpsA c ops := by
  simp only [runBOpsB, runBOpsA, applyBOp_eq]

theorem applyBOpA_eq_applyOp (c : Cache K V) (op : BOp K V) :
    applyBOpA c op = applyOp c (toOp op) := by
  cases op <;> rfl

theorem runOps_cons (c : Cache K V) (op : Op K V) (ops : List (Op K V)) :
    runOps c (op :: ops) = runOps (applyOp c op).1 ops := rfl

theorem runBOpsA_state (c : Cache K V) (ops : List (BOp K V)) :
    (runBOpsA c ops).1 = runOps c (ops.map toOp) := by
  suffices h : ∀ (acc : List (K × V)) (c : Cache K V),
      (ops.foldl (fun r op => ((applyBOpA r.1 op).1, r.2 ++ (applyBOpA r.1 op).2))
          (c, acc)).1 =
        runOps c (ops.map toOp) by
    exact h [] c
  induction ops with
  | nil => intro acc c; rfl
  | cons op t ih =>
    intro acc c
    rw [List.map_cons, runOps_cons, List.foldl_cons, applyBOpA_eq_applyOp]
    exact ih _ _

theorem wf_runBOpsA (maxSize : Int) (f : K → V → Int) (ops : List (BOp K V)) :
    WF (runBOpsA (Va.New (K := K) (V := V) maxSize f) ops).1 := by
  rw [runBOpsA_state]
  exact wf_runOps maxSize f _

/-- Claim C1: for a cache constructed with `max_size ≥ 0` and a pure cost
function returning non-negative costs, after every sequence of public
operations (`Put`, `Get`, `Remove`, `RemoveIf`, `RemoveAll`), `Size()` is at
most `max_size`. -/
theorem lruC1 (maxSize : Int) (f : K → V → Int) (h0 : 0 ≤ maxSize)
    (hf : ∀ k v, 0 ≤ f k v) (ops : List (Op K V)) :
    Va.Size (runOps (Va.New maxSize f) ops) ≤ maxSize := by
  have h := runOps_size (wf_new maxSize f) h0 hf h0 ops
  have h2 := (runOps_inv (wf_new maxSize f) ops).2.1
  calc Va.Size (runOps (Va.New maxSize f) ops)
      = (runOps (Va.New maxSize f) ops).curSize := rfl
    _ ≤ (runOps (Va.New maxSize f) ops).maxSize := h
    _ = maxSize := h2

/-- Witness for C1 at a concrete capacity-2 unit-cost cache and a concrete
operation sequence. -/
theorem lruC1_witness :
    (0 : Int) ≤ 2 ∧
      Va.Size (runOps (Va.New 2 unitCost)
        [Op.put 1 1, Op.put 2 2, Op.put 3 3, Op.get 1, Op.remove 2]) ≤ 2 :=
  ⟨by decide, lruC1 2 unitCost (by decide)
    (fun k v => show (0 : Int) ≤ 1 by decide) _⟩

/-- Claim C2 counterexample: `Put(5, 5)` into a fresh capacity-0 unit-cost
cache triggers an eviction of the entry just inserted, so the eviction
callback fires for key `5` itself — contradicting the claim that every
eviction during a `Put(k, v)` is for a key different from `k`. -/
theorem lruC2_counterexample :
    ¬ ∀ e ∈ (Va.Put (Va.New (K := Nat) (V := Nat) 0 unitCost) 5 5).2,
      e.1 ≠ 5 := by
  decide

/-- Claim C2 (amended): during `Put(k, v)` on a well-formed cache, every
eviction-callback invocation except possibly the last is for a key different
from `k`; the last invocation is for `k` itself if and only if the eviction
pass leaves the cache empty, and that can happen only if `cost(k, v)` alone
exceeds `max_size`. -/
theorem lruC2_amended {c : Cache K V} (hwf : WF c) (k : K) (v : V) :
    (∀ e ∈ (Va.Put c k v).2.dropLast, e.1 ≠ k) ∧
    (∀ e, (Va.Put c k v).2.getLast? = some e → e.1 = k →
      (Va.Put c k v).1.li = []) ∧
    ((Va.Put c k v).1.li = [] →
      ∃ e, (Va.Put c k v).2.getLast? = some e ∧ e.1 = k) ∧
    ((Va.Put c k v).1.li = [] → c.maxSize < c.sizeCal k v) := by
  obtain ⟨c1, heq, hwf1, hmax, hsc, rest, hli⟩ := put_front hwf k v
  rw [heq]
  obtain ⟨h1, h2, h3, h4, h5⟩ := expire_front hwf1 hli
  refine ⟨h1, h2, ?_, ?_⟩
  · intro hnil
    exact ⟨(k, v), h5 hnil, rfl⟩
  · intro hnil
    have := h3 hnil
    rw [hmax, hsc] at this
    exact this

/-- Witness for the amended C2: inserting key 3 into a full capacity-2 cache
evicts only the other, least recently used entry, while inserting key 5 into
a capacity-0 cache empties the cache with the final (only) eviction being
key 5 itself. -/
theorem lruC2_witness :
    (∀ e ∈ (Va.Put (runOps (Va.New 2 unitCost) [Op.put 1 1, Op.put 2 2])
        3 3).2.dropLast, e.1 ≠ 3) ∧
    (∃ e, (Va.Put (Va.New (K := Nat) (V := Nat) 0 unitCost)
        5 5).2.getLast? = some e ∧ e.1 = 5) ∧
    (Va.Put (Va.New (K := Nat) (V := Nat) 0 unitCost) 5 5).1.li = [] := by
  have hA := lruC2_amended (wf_runOps 2 unitCost [Op.put 1 1, Op.put 2 2]) 3 3
  have hB := lruC2_amended (wf_new 0 unitCost) 5 5
  exact ⟨hA.1, hB.2.2.1 (by decide), by decide⟩

/-- Claim C3: in every state reachable from `New` by public operations the
key set of the map equals the key set of the recency list, the list's keys
are pairwise distinct (one position per live key), and `curSize` is the
total cost of the resident entries; moreover every public operation
preserves this combined invariant `WF`. -/
theorem lruC3 (maxSize : Int) (f : K → V → Int) :
    (∀ ops : List (Op K V),
      (∀ k, k ∈ (runOps (Va.New maxSize f) ops).m ↔
        k ∈ keysOf (runOps (Va.New maxSize f) ops).li) ∧
      (keysOf (runOps (Va.New maxSize f) ops).li).Nodup ∧
      (runOps (Va.New maxSize f) ops).curSize =
        sizeSum (runOps (Va.New maxSize f) ops).sizeCal
          (runOps (Va.New maxSize f) ops).li) ∧
    ∀ (c : Cache K V) (op : Op K V), WF c → WF (applyOp c op).1 := by
  constructor
  · intro ops
    have h := wf_runOps maxSize f ops
    exact ⟨h.mem_m_iff, h.nodup, h.size⟩
  · intro c op hwf
    exact (applyOp_inv hwf op).1

/-- Witness for C3: the invariant is preserved by a concrete `Put` on a
concrete reachable state. -/
theorem lruC3_witness :
    WF (applyOp (runOps (Va.New 3 unitCost) [Op.put 1 1]) (Op.put 2 2)).1 :=
  (lruC3 3 unitCost).2 _ _ (wf_runOps 3 unitCost [Op.put 1 1])

/-- Claim C4: on a well-formed state the eviction pass terminates within
`c.li.length` iterations (any fuel at least the entry count computes
`expireUnlock`), it removes exactly the back-most entries (the final list is
a prefix of the initial one and the trace holds the removed suffix in
removal order), each iteration removes exactly one entry, afterwards either
`curSize ≤ maxSize` or the cache is empty, and `curSize` has decreased by
the total cost of the evicted entries. -/
theorem lruC4 {c : Cache K V} (hwf : WF c) :
    (∀ fuel, c.li.length ≤ fuel →
      Va.expireLoop fuel c = Va.expireUnlock c) ∧
    c.li = (Va.expireUnlock c).1.li ++ (Va.expireUnlock c).2.reverse ∧
    (Va.expireUnlock c).1.li.length + (Va.expireUnlock c).2.length =
      c.li.length ∧
    ((Va.expireUnlock c).1.curSize ≤ c.maxSize ∨
      (Va.expireUnlock c).1.li = []) ∧
    (Va.expireUnlock c).1.curSize =
      c.curSize - sizeSum c.sizeCal (Va.expireUnlock c).2 := by
  obtain ⟨rwf, rmax, rsiz, rdec, rguard, rhead⟩ := expireUnlock_spec hwf
  refine ⟨fun fuel h => expireLoop_fuel hwf fuel h, rdec, ?_, rguard, ?_⟩
  · have hlen := congrArg List.length rdec
    simp only [List.length_append, List.length_reverse] at hlen
    omega
  · have h1 := rwf.size
    rw [rsiz] at h1
    have h2 := hwf.size
    rw [rdec, sizeSum_append, sizeSum_reverse] at h2
    omega

/-- Witness for C4 on a concrete over-budget two-entry cache. -/
theorem lruC4_witness :
    Va.expireLoop 2 cacheEx = Va.expireUnlock cacheEx ∧
    cacheEx.li =
      (Va.expireUnlock cacheEx).1.li ++ (Va.expireUnlock cacheEx).2.reverse ∧
    (Va.expireUnlock cacheEx).1.li.length +
      (Va.expireUnlock cacheEx).2.length = cacheEx.li.length ∧
    ((Va.expireUnlock cacheEx).1.curSize ≤ cacheEx.maxSize ∨
      (Va.expireUnlock cacheEx).1.li = []) ∧
    (Va.expireUnlock cacheEx).1.curSize =
      cacheEx.curSize - sizeSum cacheEx.sizeCal (Va.expireUnlock cacheEx).2
    := by
  have hwfEx : WF cacheEx := ⟨by decide, List.Perm.refl _, by decide⟩
  have h := lruC4 hwfEx
  exact ⟨h.1 2 (by decide), h.2.1, h.2.2.1, h.2.2.2.1, h.2.2.2.2⟩

/-- Claim C5 counterexample: with capacity 1 and cost equal to the stored
value, `Put(7, 1); Put(7, 2)` updates key 7 in place but the following
eviction pass removes the updated entry itself (cost 2 > 1), so the
subsequent `Get(7)` does not return `(2, true)`. -/
theorem lruC5_counterexample :
    (Va.Get (Va.Put (Va.Put (Va.New (K := Nat) (V := Nat) 1 valCost)
      7 1).1 7 2).1 7).1 ≠ some 2 := by
  decide

/-- Claim C5 (amended): if key `k` is resident with value `v1` and
`cost(k, v2) ≤ max_size` (so the eviction pass cannot remove the updated
entry itself), then `Put(k, v2)` updates in place: a subsequent `Get(k)`
returns `(v2, true)`, the updated entry sits at the front of the recency
order, the entry count does not increase, `on_evict` is not invoked for `k`,
and the running size changes by `cost(k, v2) - cost(k, v1)` minus the cost
of whatever other entries the pass evicts. -/
theorem lruC5_amended {c : Cache K V} (hwf : WF c) {k : K} {v1 : V} (v2 : V)
    (hres : lookupVal c.li k = some v1)
    (hcost : c.sizeCal k v2 ≤ c.maxSize) :
    (Va.Get (Va.Put c k v2).1 k).1 = some v2 ∧
    (Va.Put c k v2).1.li.head? = some (k, v2) ∧
    Va.Number (Va.Put c k v2).1 ≤ Va.Number c ∧
    (∀ e ∈ (Va.Put c k v2).2, e.1 ≠ k) ∧
    (Va.Put c k v2).1.curSize + sizeSum c.sizeCal (Va.Put c k v2).2 =
      c.curSize - c.sizeCal k v1 + c.sizeCal k v2 := by
  obtain ⟨l1, l2, hli, h1⟩ := lookup_some_split hres
  have hk : k ∈ keysOf c.li := by
    rw [hli]
    simp
  have hm : k ∈ c.m := (hwf.mem_m_iff k).2 hk
  rw [put_mem v2 hm hli h1]
  set c1 : Cache K V :=
    { c with
        curSize := c.curSize - c.sizeCal k v1 + c.sizeCal k v2,
        li := (k, v2) :: (l1 ++ l2) } with hc1
  have hwf1 : WF c1 := wf_put_update hwf v2 hli
  have hli1 : c1.li = (k, v2) :: (l1 ++ l2) := rfl
  have hcur1 : c1.curSize = c.curSize - c.sizeCal k v1 + c.sizeCal k v2 := rfl
  have hsc1 : c1.sizeCal = c.sizeCal := rfl
  have hmax1 : c1.maxSize = c.maxSize := rfl
  obtain ⟨rwf, rmax, rsiz, rdec, rguard, rhead⟩ := expireUnlock_spec hwf1
  obtain ⟨f1, f2, f3, f4, f5⟩ := expire_front hwf1 hli1
  have hne : (Va.expireUnlock c1).1.li ≠ [] := by
    intro h0
    have hlt := f3 h0
    rw [hmax1, hsc1] at hlt
    exact absurd hcost (not_le.mpr hlt)
  obtain ⟨rest2, hpost, htraceK⟩ := f4 hne
  refine ⟨?_, ?_, ?_, htraceK, ?_⟩
  · rw [get_mem rwf
      (show (Va.expireUnlock c1).1.li = [] ++ (k, v2) :: rest2 by
        simpa using hpost)
      (by simp)]
  · rw [hpost]
    rfl
  · show (Va.expireUnlock c1).1.li.length ≤ c.li.length
    have hlen := congrArg List.length rdec
    rw [hli1] at hlen
    simp only [List.length_cons, List.length_append,
      List.length_reverse] at hlen
    have hclen : c.li.length = l1.length + 1 + l2.length := by
      rw [hli]
      simp only [List.length_cons, List.length_append]
      omega
    omega
  · have h1s := rwf.size
    rw [rsiz, hsc1] at h1s
    have h2s := hwf1.size
    rw [rdec, sizeSum_append, sizeSum_reverse, hcur1, hsc1] at h2s
    omega

/-- Witness for the amended C5: updating the value of resident key 1 in a
roomy cache, then reading it back. -/
theorem lruC5_witness :
    (Va.Get (Va.Put (runOps (Va.New 10 unitCost) [Op.put 1 1, Op.put 2 2])
        1 5).1 1).1 = some 5 ∧
    (Va.Put (runOps (Va.New 10 unitCost) [Op.put 1 1, Op.put 2 2])
        1 5).1.li.head? = some (1, 5) ∧
    Va.Number (Va.Put (runOps (Va.New 10 unitCost) [Op.put 1 1, Op.put 2 2])
        1 5).1 ≤
      Va.Number (runOps (Va.New 10 unitCost) [Op.put 1 1, Op.put 2 2]) ∧
    (∀ e ∈ (Va.Put (runOps (Va.New 10 unitCost) [Op.put 1 1, Op.put 2 2])
        1 5).2, e.1 ≠ 1) ∧
    (Va.Put (runOps (Va.New 10 unitCost) [Op.put 1 1, Op.put 2 2])
          1 5).1.curSize +
        sizeSum (runOps (Va.New 10 unitCost)
          [Op.put 1 1, Op.put 2 2]).sizeCal
          (Va.Put (runOps (Va.New 10 unitCost) [Op.put 1 1, Op.put 2 2])
            1 5).2 =
      (runOps (Va.New 10 unitCost) [Op.put 1 1, Op.put 2 2]).curSize -
          (runOps (Va.New 10 unitCost) [Op.put 1 1, Op.put 2 2]).sizeCal 1 1 +
        (runOps (Va.New 10 unitCost) [Op.put 1 1, Op.put 2 2]).sizeCal 1 5 :=
  lruC5_amended (wf_runOps 10 unitCost [Op.put 1 1, Op.put 2 2]) 5
    (by decide) (by decide)

/-- Claim C6: `Get` on an absent key returns not-found and leaves the state
unchanged; `Get` on a resident key returns its current value, moves the
entry to the front of the recency order, and changes neither `Size`,
`Number`, the map, nor the set of resident keys. -/
theorem lruC6 {c : Cache K V} (hwf : WF c) (k : K) :
    (k ∉ keysOf c.li → Va.Get c k = (none, c)) ∧
    ∀ v, lookupVal c.li k = some v →
      (Va.Get c k).1 = some v ∧
      (Va.Get c k).2.li.head? = some (k, v) ∧
      Va.Size (Va.Get c k).2 = Va.Size c ∧
      Va.Number (Va.Get c k).2 = Va.Number c ∧
      (Va.Get c k).2.m = c.m ∧
      ∀ j, j ∈ keysOf (Va.Get c k).2.li ↔ j ∈ keysOf c.li := by
  constructor
  · intro hk
    exact get_not_mem hwf hk
  · intro v hres
    obtain ⟨l1, l2, hli, h1⟩ := lookup_some_split hres
    rw [get_mem hwf hli h1]
    refine ⟨rfl, rfl, rfl, ?_, rfl, ?_⟩
    · show ((k, v) :: (l1 ++ l2)).length = c.li.length
      rw [hli]
      simp only [List.length_cons, List.length_append]
      omega
    · intro j
      show j ∈ keysOf ((k, v) :: (l1 ++ l2)) ↔ j ∈ keysOf c.li
      rw [hli]
      simp only [keysOf_cons, keysOf_append]
      exact List.perm_middle.symm.mem_iff

/-- Witness for C6: reading absent key 9 and resident key 1 of a concrete
two-entry cache. -/
theorem lruC6_witness :
    (Va.Get (runOps (Va.New 3 unitCost) [Op.put 1 1, Op.put 2 2]) 1).1
        = some 1 ∧
    Va.Size (Va.Get (runOps (Va.New 3 unitCost)
        [Op.put 1 1, Op.put 2 2]) 1).2 =
      Va.Size (runOps (Va.New 3 unitCost) [Op.put 1 1, Op.put 2 2]) ∧
    Va.Get (runOps (Va.New 3 unitCost) [Op.put 1 1, Op.put 2 2]) 9 =
      (none, runOps (Va.New 3 unitCost) [Op.put 1 1, Op.put 2 2]) := by
  have h := lruC6 (wf_runOps 3 unitCost [Op.put 1 1, Op.put 2 2]) 1
  have h9 := lruC6 (wf_runOps 3 unitCost [Op.put 1 1, Op.put 2 2]) 9
  have hp := h.2 1 (by decide)
  exact ⟨hp.1, hp.2.2.1, h9.1 (by decide)⟩

/-- Claim C7 counterexample: with `max_size = 0` and the all-zero cost
function, an inserted entry is retained (its cost 0 does not exceed the
maximum), so a non-positive maximum does not force eviction for an
arbitrary cost function. -/
theorem lruC7_counterexample :
    Va.Number (Va.Put (Va.New (K := Nat) (V := Nat) 0 (fun j w => 0))
      1 1).1 ≠ 0 := by
  decide

/-- Claim C7 (amended): for a cache constructed with `max_size ≤ 0` and a
strictly positive cost function (such as the default constant 1), every
`Put` completes and evicts every entry before returning: after each insert
the cache is empty, with `Number() = 0` and `Size() = 0`. -/
theorem lruC7_amended (maxSize : Int) (f : K → V → Int) (h0 : maxSize ≤ 0)
    (hf : ∀ k v, 0 < f k v) (ops : List (Op K V)) (k : K) (v : V) :
    Va.Number (Va.Put (runOps (Va.New maxSize f) ops) k v).1 = 0 ∧
    Va.Size (Va.Put (runOps (Va.New maxSize f) ops) k v).1 = 0 := by
  obtain ⟨hwf, hmax, hsc⟩ := runOps_inv (wf_new maxSize f) ops
  have hmax2 : (runOps (Va.New (K := K) (V := V) maxSize f) ops).maxSize =
      maxSize := hmax
  obtain ⟨c1, heq, hwf1, hmax1, hsc1, rest, hli⟩ :=
    put_front hwf k v
  rw [heq]
  obtain ⟨rwf, rmax, rsiz, rdec, rguard, rhead⟩ := expireUnlock_spec hwf1
  have hnil : (Va.expireUnlock c1).1.li = [] := by
    by_contra hne
    have hpos : 0 < (Va.expireUnlock c1).1.curSize := by
      have hs := rwf.size
      rw [rsiz, hsc1, hsc] at hs
      rw [hs]
      exact sizeSum_pos f hf hne
    rcases rguard with h | h
    · rw [hmax1, hmax2] at h
      omega
    · exact hne h
  constructor
  · show (Va.expireUnlock c1).1.li.length = 0
    rw [hnil]
    rfl
  · show (Va.expireUnlock c1).1.curSize = 0
    have hs := rwf.size
    rw [hnil] at hs
    simpa using hs

/-- Witness for the amended C7: a `Put` into a capacity-0 unit-cost cache
leaves it empty. -/
theorem lruC7_witness :
    Va.Number (Va.Put (runOps (Va.New 0 unitCost) [Op.put 1 1]) 2 2).1 = 0 ∧
    Va.Size (Va.Put (runOps (Va.New 0 unitCost) [Op.put 1 1]) 2 2).1 = 0 :=
  lruC7_amended 0 unitCost (by decide)
    (fun k v => show (0 : Int) < 1 by decide) [Op.put 1 1] 2 2

/-- Claim C8: `RemoveIf p` makes one front-to-back pass over the recency
order as of call time: it removes exactly the entries whose key satisfies
`p` (invoking `on_evict` once per removed entry, in pass order), keeps the
surviving entries in their previous relative order, and the remaining size
is the total cost of the survivors. -/
theorem lruC8 {c : Cache K V} (hwf : WF c) (p : K → Bool) :
    (Va.RemoveIf c p).1.li = c.li.filter (fun e => !(p e.1)) ∧
    (Va.RemoveIf c p).2 = c.li.filter (fun e => p e.1) ∧
    Va.Size (Va.RemoveIf c p).1 =
      sizeSum c.sizeCal (c.li.filter (fun e => !(p e.1))) := by
  obtain ⟨rwf, rmax, rsiz, rli, rtr⟩ := removeIf_spec hwf p
  refine ⟨rli, rtr, ?_⟩
  have hs := rwf.size
  rw [rsiz, rli] at hs
  exact hs

/-- Witness for C8: the spec's scenario — capacity 10, insert 0..9, remove
the odd keys; keys 8,6,4,2,0 survive in order and the size is 5. -/
theorem lruC8_witness :
    keysOf (Va.RemoveIf (runOps (Va.New 10 unitCost) (putsUpTo 10))
        oddKey).1.li = [8, 6, 4, 2, 0] ∧
    Va.Size (Va.RemoveIf (runOps (Va.New 10 unitCost) (putsUpTo 10))
        oddKey).1 = 5 := by
  obtain ⟨h1, h2, h3⟩ := lruC8 (wf_runOps 10 unitCost (putsUpTo 10)) oddKey
  constructor
  · rw [h1]
    decide
  · rw [h3]
    decide

/-- Claim C9: removing an absent key is a complete no-op: the state is
unchanged and the eviction callback is not invoked. -/
theorem lruC9 {c : Cache K V} (hwf : WF c) {k : K} (h : k ∉ keysOf c.li) :
    Va.Remove c k = (c, []) := by
  have hm : k ∉ c.m := fun hin => h ((hwf.mem_m_iff k).1 hin)
  exact removeUnlock_not_mem hm

/-- Witness for C9: removing absent key 5 from a concrete two-entry cache. -/
theorem lruC9_witness :
    Va.Remove (runOps (Va.New 3 unitCost) [Op.put 1 1, Op.put 2 2]) 5 =
      (runOps (Va.New 3 unitCost) [Op.put 1 1, Op.put 2 2], []) :=
  lruC9 (wf_runOps 3 unitCost [Op.put 1 1, Op.put 2 2]) (by decide)

/-- Claim C10: running any sequence of the operations the two source
variants share (`New`, `Put`, `Get`, `Remove`, `RemoveAll`) yields the same
cache state and the same eviction-callback trace in both variants, `Get`,
`Size` and `Number` then return the same results, and the two `AllKeys`
results contain the same keys (`src/lru.go` lists the key map,
`src/unnamed/part_000` lists the recency order). -/
theorem lruC10 (maxSize : Int) (f : K → V → Int) (ops : List (BOp K V)) :
    runBOpsB (Vb.New maxSize f) ops = runBOpsA (Va.New maxSize f) ops ∧
    (∀ k, Vb.Get (runBOpsB (Vb.New maxSize f) ops).1 k =
      Va.Get (runBOpsA (Va.New maxSize f) ops).1 k) ∧
    Vb.Size (runBOpsB (Vb.New maxSize f) ops).1 =
      Va.Size (runBOpsA (Va.New maxSize f) ops).1 ∧
    Vb.Number (runBOpsB (Vb.New maxSize f) ops).1 =
      Va.Number (runBOpsA (Va.New maxSize f) ops).1 ∧
    ∀ k, k ∈ Vb.AllKeys (runBOpsB (Vb.New maxSize f) ops).1 ↔
      k ∈ Va.AllKeys (runBOpsA (Va.New maxSize f) ops).1 := by
  have hnew : Vb.New (K := K) (V := V) maxSize f = Va.New maxSize f := rfl
  have hstate : runBOpsB (Vb.New (K := K) (V := V) maxSize f) ops =
      runBOpsA (Va.New maxSize f) ops := by
    rw [hnew, runBOps_eq]
  refine ⟨hstate, ?_, ?_, ?_, ?_⟩
  · intro k
    rw [hstate]
    rfl
  · rw [hstate]
    rfl
  · rw [hstate]
    rfl
  · intro k
    rw [hstate]
    exact (wf_runBOpsA maxSize f ops).mem_m_iff k

end LruSpec
